import Mathlib

/-!
Shallow embedding of `src/bot/executors/executor.py` (class `Executor`).

The executor holds a configured `max_workers` bound, a pending-worker queue
(`_pending_workers`, a `Queue` attribute that is `None` before `start` and
after `clean_up`), a running-worker list (`_running_workers`) and a mapping
worker to thread (`_running_threads`).  Each Python method is translated to a
pure function on an explicit state; a raised exception is an `Except.error`
carrying the instance state at the moment of the raise.  Ghost instrumentation
fields record the dispatch order, the number of `notify_observers()` calls and
the `kill()` calls, so that observable behaviour (and only it) is visible to
the theorems.
-/

namespace ExecutorModel

/-- Workers are identity-comparable objects; modelled by natural-number ids. -/
abbrev Worker := Nat

/-- Thread ids for the `StoppableThread` handles, allocated freshly at each
dispatch. -/
abbrev ThreadId := Nat

/-- The Python exceptions the executor code can raise: the
`OperationalException` of `_initialize`, the `AttributeError` of calling
`empty()` on a `None` queue attribute, and the `KeyError` of a failed
`_running_threads[worker]` lookup. -/
inductive PyError where
  | operationalException
  | attributeError
  | keyError
deriving DecidableEq

/-- Python `dict` lookup (`d[k]`): the entry with matching key, if any. -/
def dictGet (d : List (Worker × ThreadId)) (k : Worker) : Option ThreadId :=
  (d.find? (fun e => e.1 == k)).map (fun e => e.2)

/-- Python `d[k] = v`: replace the value in place when the key is already
present, otherwise append the new entry (dicts keep insertion order). -/
def dictInsert (d : List (Worker × ThreadId)) (k : Worker) (v : ThreadId) :
    List (Worker × ThreadId) :=
  if d.any (fun e => e.1 == k) then
    d.map (fun e => if e.1 = k then (k, v) else e)
  else
    d ++ [(k, v)]

/-- The keys of a dict. -/
def dictKeys (d : List (Worker × ThreadId)) : List Worker :=
  d.map (fun e => e.1)

/-- The attributes of one `Executor` instance.  `maxWorkers`,
`pendingWorkers`, `runningWorkers` and `runningThreads` are the four Python
attributes; `nextThread` allocates fresh thread ids, and `dispatchTrace`,
`notifyCount`, `killTrace` are ghost observation logs (threads started in
order, `notify_observers()` call count, killed thread ids in order). -/
structure ExecutorState where
  maxWorkers : Nat
  pendingWorkers : Option (List Worker)
  runningWorkers : List Worker
  runningThreads : List (Worker × ThreadId)
  nextThread : ThreadId
  dispatchTrace : List Worker
  notifyCount : Nat
  killTrace : List ThreadId
deriving DecidableEq

/-- Result of a method call: normal return, or a raised exception paired with
the instance state at the moment of the raise. -/
abbrev ExecResult := Except (PyError × ExecutorState) ExecutorState

/-- The instance state after a call, whether or not it raised. -/
def after (r : ExecResult) : ExecutorState :=
  match r with
  | .ok s => s
  | .error e => e.2

/-- `Executor.__init__(max_workers)`. -/
def initState (n : Nat) : ExecutorState :=
  { maxWorkers := n, pendingWorkers := none, runningWorkers := [],
    runningThreads := [], nextThread := 0, dispatchTrace := [],
    notifyCount := 0, killTrace := [] }

/-- The `Executor.processing` property:
`(pending is not None and not pending.empty()) or
 (running is not None and len(running) > 0)`.
`_running_workers` is always a list in this model, so its `is not None` test
is identically true. -/
def processing (s : ExecutorState) : Bool :=
  (match s.pendingWorkers with
   | some q => !q.isEmpty
   | none => false) || decide (0 < s.runningWorkers.length)

/-- Result of the dispatch loop of `Executor.run_jobs`. -/
structure LoopResult where
  pending : List Worker
  running : List Worker
  threads : List (Worker × ThreadId)
  next : ThreadId
  trace : List Worker
deriving DecidableEq

/-- The `while` loop of `Executor.run_jobs`: while `worker_iteration > 0` and
the queue is non-empty, dequeue the next worker, start a fresh thread for it,
record the thread under the worker and append the worker to the running
list. -/
def runJobsLoop : List Worker → Int → List Worker →
    List (Worker × ThreadId) → ThreadId → List Worker → LoopResult
  | [], _, running, threads, next, trace =>
      ⟨[], running, threads, next, trace⟩
  | w :: rest, wi, running, threads, next, trace =>
      if 0 < wi then
        runJobsLoop rest (wi - 1) (running ++ [w])
          (dictInsert threads w next) (next + 1) (trace ++ [w])
      else ⟨w :: rest, running, threads, next, trace⟩

/-- `Executor.run_jobs`.  `worker_iteration` is the Python int
`max_workers - len(running)`; when it is positive and the queue attribute is
`None`, the loop condition calls `empty()` on `None` and Python raises
`AttributeError` before any mutation. -/
def run_jobs (s : ExecutorState) : ExecResult :=
  let wi : Int := (s.maxWorkers : Int) - (s.runningWorkers.length : Int)
  match s.pendingWorkers with
  | none => if 0 < wi then .error (.attributeError, s) else .ok s
  | some p =>
      let r := runJobsLoop p wi s.runningWorkers s.runningThreads
        s.nextThread s.dispatchTrace
      .ok { s with pendingWorkers := some r.pending,
                   runningWorkers := r.running,
                   runningThreads := r.threads,
                   nextThread := r.next,
                   dispatchTrace := r.trace }

/-- The private initializer of `Executor` (source name `_initialize`, renamed
here): raise `OperationalException` when the factory result is empty,
otherwise replace the pending queue by a fresh queue holding the factory
result in order. -/
def initQueue (s : ExecutorState) (workers : List Worker) : ExecResult :=
  if workers.isEmpty then .error (.operationalException, s)
  else .ok { s with pendingWorkers := some workers }

/-- `Executor.start`, parameterised by the result of the abstract factory
`create_workers()`. -/
def start (s : ExecutorState) (workers : List Worker) : ExecResult :=
  (initQueue s workers).bind run_jobs

/-- `Executor.update` (the observer callback invoked on worker completion):
remove the finishing worker from the running list if present, then either
notify the external observers (when `processing` is false) or call
`run_jobs`. -/
def update (s : ExecutorState) (observable : Worker) : ExecResult :=
  let s1 :=
    if observable ∈ s.runningWorkers then
      { s with runningWorkers := s.runningWorkers.erase observable }
    else s
  if processing s1 then run_jobs s1
  else .ok { s1 with notifyCount := s1.notifyCount + 1 }

/-- `Executor.stop_running_worker`: look the worker up in `_running_threads`
(a `KeyError` when absent) and `kill()` its thread; the kill is recorded on
the ghost `killTrace`. -/
def stop_running_worker (s : ExecutorState) (w : Worker) : ExecResult :=
  match dictGet s.runningThreads w with
  | none => .error (.keyError, s)
  | some t => .ok { s with killTrace := s.killTrace ++ [t] }

/-- The `for` loop of `Executor.stop` over the running workers. -/
def stopLoop (s : ExecutorState) : List Worker → ExecResult
  | [] => .ok s
  | w :: ws =>
      match stop_running_worker s w with
      | .ok s' => stopLoop s' ws
      | .error e => .error e

/-- `Executor.clean_up`: reset the three containers. -/
def clean_up (s : ExecutorState) : ExecutorState :=
  { s with pendingWorkers := none, runningWorkers := [],
           runningThreads := [] }

/-- `Executor.stop`: kill each running worker's thread, then clean up. -/
def stop (s : ExecutorState) : ExecResult :=
  (stopLoop s s.runningWorkers).map clean_up

/-- The operations a caller (or a finishing worker, via `update`) can
invoke on one executor instance. -/
inductive Event where
  | start (workers : List Worker)
  | runJobs
  | update (w : Worker)
  | stop
  | cleanUp

/-- Apply one operation. -/
def applyEvent (s : ExecutorState) : Event → ExecResult
  | .start ws => start s ws
  | .runJobs => run_jobs s
  | .update w => update s w
  | .stop => stop s
  | .cleanUp => .ok (clean_up s)

/-- States reachable from a freshly constructed executor by an arbitrary call
sequence; a raised exception leaves the instance in its at-raise state. -/
inductive Reachable (n : Nat) : ExecutorState → Prop
  | init : Reachable n (initState n)
  | step {s : ExecutorState} (e : Event) :
      Reachable n s → Reachable n (after (applyEvent s e))

/-! ### Dictionary lemmas -/

theorem dictGet_nil (w : Worker) : dictGet [] w = none := rfl

theorem dictGet_cons (x : Worker × ThreadId) (l : List (Worker × ThreadId))
    (w : Worker) :
    dictGet (x :: l) w = if x.1 = w then some x.2 else dictGet l w := by
  by_cases h : x.1 = w
  · simp [dictGet, List.find?_cons_of_pos, h]
  · simp [dictGet, List.find?_cons_of_neg, h]

theorem dictGet_mapReplace (d : List (Worker × ThreadId)) (k : Worker)
    (v : ThreadId) (w : Worker) :
    dictGet (d.map (fun e => if e.1 = k then (k, v) else e)) w =
      if w = k then
        (if d.any (fun e => e.1 == k) then some v else none)
      else dictGet d w := by
  induction d with
  | nil => by_cases h : w = k <;> simp [dictGet_nil, h]
  | cons e rest ih =>
      rw [List.map_cons, dictGet_cons, dictGet_cons]
      by_cases he : e.1 = k
      · rw [if_pos he]
        by_cases hw : w = k
        · subst hw
          simp [he, List.any_cons]
        · have hkw : ¬ k = w := fun hh => hw hh.symm
          have hew : ¬ e.1 = w := fun hh => hw (he ▸ hh).symm
          rw [ih]
          simp [hw, hkw, hew]
      · rw [if_neg he]
        by_cases hw : w = k
        · subst hw
          rw [ih]
          have hb : (e.1 == w) = false := by simp [he]
          cases hr2 : rest.any (fun x => x.1 == w) with
          | true => simp [List.any_cons, hr2, hb, he]
          | false => simp [List.any_cons, hr2, hb, he]
        · rw [ih]
          simp [hw]

theorem dictGet_append_single (d : List (Worker × ThreadId)) (k : Worker)
    (v : ThreadId) (w : Worker)
    (hnone : d.any (fun e => e.1 == k) = false) :
    dictGet (d ++ [(k, v)]) w = if w = k then some v else dictGet d w := by
  induction d with
  | nil =>
      rw [List.nil_append, dictGet_cons]
      by_cases h : w = k
      · simp [h]
      · have : ¬ k = w := fun hh => h hh.symm
        simp [h, this, dictGet_nil]
  | cons e rest ih =>
      have hek : (e.1 == k) = false ∧ rest.any (fun x => x.1 == k) = false := by
        simpa [List.any_cons] using hnone
      rw [List.cons_append, dictGet_cons, dictGet_cons, ih hek.2]
      by_cases hw : w = k
      · subst hw
        have : ¬ e.1 = w := by simpa using hek.1
        simp [this]
      · simp [hw]

theorem dictGet_insert (d : List (Worker × ThreadId)) (k : Worker)
    (v : ThreadId) (w : Worker) :
    dictGet (dictInsert d k v) w = if w = k then some v else dictGet d w := by
  by_cases hany : d.any (fun e => e.1 == k) = true
  · rw [dictInsert, if_pos hany, dictGet_mapReplace, hany]
    simp
  · rw [dictInsert, if_neg hany,
      dictGet_append_single d k v w (by rwa [← Bool.not_eq_true])]

theorem dictKeys_mapReplace (d : List (Worker × ThreadId)) (k : Worker)
    (v : ThreadId) :
    dictKeys (d.map (fun e => if e.1 = k then (k, v) else e)) = dictKeys d := by
  induction d with
  | nil => rfl
  | cons e rest ih =>
      by_cases he : e.1 = k
      · simp only [dictKeys, List.map_cons] at ih ⊢
        rw [if_pos he, ih]
        simp [he]
      · simp only [dictKeys, List.map_cons] at ih ⊢
        rw [if_neg he, ih]

theorem keysNodup_insert {d : List (Worker × ThreadId)} {k : Worker}
    {v : ThreadId} (h : (dictKeys d).Nodup) :
    (dictKeys (dictInsert d k v)).Nodup := by
  by_cases hany : d.any (fun e => e.1 == k) = true
  · rw [dictInsert, if_pos hany, dictKeys_mapReplace]
    exact h
  · rw [dictInsert, if_neg hany]
    have hfalse : d.any (fun e => e.1 == k) = false := by
      rwa [← Bool.not_eq_true]
    have hk : k ∉ dictKeys d := by
      intro hmem
      obtain ⟨e, he, hek⟩ := List.mem_map.mp hmem
      have := List.any_eq_false.mp hfalse e he
      exact this (by simp [hek])
    have hkeys : dictKeys (d ++ [(k, v)]) = dictKeys d ++ [k] := by
      simp [dictKeys]
    rw [hkeys]
    simp [List.nodup_append, h, hk]

theorem dict_countP_eq_one {d : List (Worker × ThreadId)} {w : Worker}
    (h : (dictKeys d).Nodup) (hw : (dictGet d w).isSome = true) :
    d.countP (fun e => e.1 == w) = 1 := by
  induction d with
  | nil => simp [dictGet] at hw
  | cons e rest ih =>
      have hk : e.1 ∉ dictKeys rest ∧ (dictKeys rest).Nodup := by
        simpa [dictKeys, List.nodup_cons] using h
      by_cases he : e.1 = w
      · have hzero : rest.countP (fun x => x.1 == w) = 0 := by
          apply List.countP_eq_zero.mpr
          intro a ha
          have : a.1 ∈ dictKeys rest := List.mem_map.mpr ⟨a, ha, rfl⟩
          simp only [beq_iff_eq]
          intro haw
          exact hk.1 (he ▸ haw ▸ this)
        simp [List.countP_cons, he, hzero]
      · rw [dictGet_cons] at hw
        simp [he] at hw
        simp [List.countP_cons, he, ih hk.2 hw]

/-- Iterated `dictInsert` with consecutive fresh thread ids: the effect of one
pass of the dispatch loop on `_running_threads`. -/
def dictInsertMany : List (Worker × ThreadId) → List Worker → ThreadId →
    List (Worker × ThreadId)
  | d, [], _ => d
  | d, w :: ws, next => dictInsertMany (dictInsert d w next) ws (next + 1)

theorem dictGet_insertMany_isSome {d : List (Worker × ThreadId)}
    {ws : List Worker} {n : ThreadId} {w : Worker}
    (h : (dictGet d w).isSome = true) :
    (dictGet (dictInsertMany d ws n) w).isSome = true := by
  induction ws generalizing d n with
  | nil => simpa [dictInsertMany]
  | cons u us ih =>
      apply ih
      rw [dictGet_insert]
      by_cases hw : w = u <;> simp [hw, h]

theorem dictGet_insertMany_mem {d : List (Worker × ThreadId)}
    {ws : List Worker} {n : ThreadId} {w : Worker} (h : w ∈ ws) :
    (dictGet (dictInsertMany d ws n) w).isSome = true := by
  induction ws generalizing d n with
  | nil => cases h
  | cons u us ih =>
      rw [dictInsertMany]
      rcases List.mem_cons.mp h with h | h
      · subst h
        apply dictGet_insertMany_isSome
        rw [dictGet_insert]
        simp
      · exact ih h

theorem keysNodup_insertMany {d : List (Worker × ThreadId)}
    {ws : List Worker} {n : ThreadId} (h : (dictKeys d).Nodup) :
    (dictKeys (dictInsertMany d ws n)).Nodup := by
  induction ws generalizing d n with
  | nil => simpa [dictInsertMany]
  | cons u us ih => exact ih (keysNodup_insert h)

/-! ### The dispatch loop in closed form -/

theorem runJobsLoop_eq (wi : Int) (p running : List Worker)
    (threads : List (Worker × ThreadId)) (next : ThreadId)
    (trace : List Worker) :
    runJobsLoop p wi running threads next trace =
      ⟨p.drop (min wi.toNat p.length),
       running ++ p.take (min wi.toNat p.length),
       dictInsertMany threads (p.take (min wi.toNat p.length)) next,
       next + min wi.toNat p.length,
       trace ++ p.take (min wi.toNat p.length)⟩ := by
  induction p generalizing wi running threads next trace with
  | nil => simp [runJobsLoop, dictInsertMany]
  | cons w rest ih =>
      by_cases h : 0 < wi
      · have h1 : wi.toNat = (wi - 1).toNat + 1 := by omega
        have hm : min wi.toNat (w :: rest).length =
            min (wi - 1).toNat rest.length + 1 := by
          rw [List.length_cons, h1, Nat.succ_min_succ]
        rw [runJobsLoop, if_pos h, ih, hm]
        have hnext : next + 1 + ((wi.toNat - 1) ⊓ rest.length) =
            next + (((wi.toNat - 1) ⊓ rest.length) + 1) := by
          rw [Nat.add_assoc, Nat.add_comm 1]
        simp [dictInsertMany, List.append_assoc, hnext]
      · have hm : min wi.toNat (w :: rest).length = 0 := by
          have : wi.toNat = 0 := by omega
          simp [this]
        rw [runJobsLoop, if_neg h, hm]
        simp [dictInsertMany]

/-- The free-slot count `max_workers - len(running)` as a natural number. -/
def avail (s : ExecutorState) : Nat :=
  s.maxWorkers - s.runningWorkers.length

/-- The workers a `run_jobs` call dispatches out of a pending list `p`. -/
def dispatched (s : ExecutorState) (p : List Worker) : List Worker :=
  p.take (min (avail s) p.length)

theorem run_jobs_some (s : ExecutorState) (p : List Worker)
    (h : s.pendingWorkers = some p) :
    run_jobs s = .ok { s with
      pendingWorkers := some (p.drop (min (avail s) p.length)),
      runningWorkers := s.runningWorkers ++ dispatched s p,
      runningThreads := dictInsertMany s.runningThreads (dispatched s p)
        s.nextThread,
      nextThread := s.nextThread + min (avail s) p.length,
      dispatchTrace := s.dispatchTrace ++ dispatched s p } := by
  have ht : ((s.maxWorkers : Int) - (s.runningWorkers.length : Int)).toNat =
      avail s := by
    simp only [avail]
    omega
  simp [run_jobs, h, runJobsLoop_eq, ht, dispatched]

theorem run_jobs_none_pos (s : ExecutorState) (h : s.pendingWorkers = none)
    (hlt : s.runningWorkers.length < s.maxWorkers) :
    run_jobs s = .error (.attributeError, s) := by
  have : (0 : Int) < (s.maxWorkers : Int) - (s.runningWorkers.length : Int) := by
    omega
  simp [run_jobs, h, this]

theorem run_jobs_none_nonpos (s : ExecutorState) (h : s.pendingWorkers = none)
    (hge : s.maxWorkers ≤ s.runningWorkers.length) :
    run_jobs s = .ok s := by
  have : ¬ (0 : Int) < (s.maxWorkers : Int) - (s.runningWorkers.length : Int) := by
    omega
  simp [run_jobs, h, this]

/-- `run_jobs` is a no-op exactly when the queue is present but empty, or no
slot is free. -/
theorem run_jobs_noop (s : ExecutorState)
    (h : s.pendingWorkers = some [] ∨
      s.maxWorkers ≤ s.runningWorkers.length) :
    run_jobs s = .ok s := by
  rcases h with h | h
  · rw [run_jobs_some s [] h]
    simp [dispatched, dictInsertMany, ← h]
  · cases hp : s.pendingWorkers with
    | none => exact run_jobs_none_nonpos s hp h
    | some p =>
        rw [run_jobs_some s p hp]
        have hmin : min (avail s) p.length = 0 := by
          simp only [avail]
          omega
        simp [dispatched, hmin, dictInsertMany, ← hp]

/-! ### The reachable-state invariant -/

theorem dispatched_length (s : ExecutorState) (p : List Worker) :
    (dispatched s p).length = min (avail s) p.length := by
  simp only [dispatched, List.length_take]
  rw [Nat.min_assoc, Nat.min_self]

/-- `processing` is false exactly when the queue holds no worker (absent or
empty) and no worker is running. -/
theorem processing_false_iff (s : ExecutorState) :
    processing s = false ↔
      (s.pendingWorkers = none ∨ s.pendingWorkers = some []) ∧
        s.runningWorkers = [] := by
  cases hp : s.pendingWorkers with
  | none => simp [processing, hp, List.length_eq_zero]
  | some q =>
      simp [processing, hp, List.length_eq_zero, List.isEmpty_iff]

/-- The invariant maintained by every reachable state of one executor
instance with configured bound `n`. -/
structure Inv (n : Nat) (s : ExecutorState) : Prop where
  mw : s.maxWorkers = n
  len_le : s.runningWorkers.length ≤ n
  threads_mem : ∀ w ∈ s.runningWorkers,
    (dictGet s.runningThreads w).isSome = true
  none_running : s.pendingWorkers = none → s.runningWorkers = []
  slots_pending : s.runningWorkers.length < n →
    s.pendingWorkers = none ∨ s.pendingWorkers = some []
  keys_nodup : (dictKeys s.runningThreads).Nodup

theorem inv_init (n : Nat) : Inv n (initState n) := by
  refine ⟨rfl, by simp [initState], ?_, ?_, ?_, ?_⟩ <;>
    simp [initState, dictKeys]

theorem inv_killTrace {n : Nat} {s : ExecutorState} (h : Inv n s)
    (ks : List ThreadId) : Inv n { s with killTrace := ks } :=
  ⟨h.mw, h.len_le, h.threads_mem, h.none_running, h.slots_pending,
    h.keys_nodup⟩

theorem inv_run_jobs_some {n : Nat} {s : ExecutorState} {p : List Worker}
    (hp : s.pendingWorkers = some p)
    (hmw : s.maxWorkers = n)
    (hlen : s.runningWorkers.length ≤ n)
    (hmem : ∀ w ∈ s.runningWorkers,
      (dictGet s.runningThreads w).isSome = true)
    (hnd : (dictKeys s.runningThreads).Nodup) :
    Inv n (after (run_jobs s)) := by
  rw [run_jobs_some s p hp]
  have havail : avail s = n - s.runningWorkers.length := by
    rw [avail, hmw]
  have hminle : min (avail s) p.length ≤ avail s := Nat.min_le_left _ _
  refine ⟨hmw, ?_, ?_, ?_, ?_, ?_⟩
  · simp only [after, List.length_append, dispatched_length]
    omega
  · intro w hw
    simp only [after] at hw ⊢
    rcases List.mem_append.mp hw with hw | hw
    · exact dictGet_insertMany_isSome (hmem w hw)
    · exact dictGet_insertMany_mem hw
  · intro hnone
    simp [after] at hnone
  · intro hlt
    simp only [after, List.length_append, dispatched_length] at hlt ⊢
    rcases Nat.lt_or_ge p.length (avail s) with hc | hc
    · right
      have hm : min (avail s) p.length = p.length :=
        Nat.min_eq_right (Nat.le_of_lt hc)
      rw [hm]
      simp
    · exfalso
      have hm : min (avail s) p.length = avail s := Nat.min_eq_left hc
      rw [hm] at hlt
      omega
  · simp only [after]
    exact keysNodup_insertMany hnd

theorem inv_run_jobs {n : Nat} {s : ExecutorState} (h : Inv n s) :
    Inv n (after (run_jobs s)) := by
  cases hp : s.pendingWorkers with
  | none =>
      by_cases hlt : s.runningWorkers.length < s.maxWorkers
      · rw [run_jobs_none_pos s hp hlt]
        exact h
      · rw [run_jobs_none_nonpos s hp (Nat.le_of_not_lt hlt)]
        exact h
  | some p =>
      exact inv_run_jobs_some hp h.mw h.len_le h.threads_mem h.keys_nodup

theorem inv_update {n : Nat} {s : ExecutorState} (h : Inv n s) (w : Worker) :
    Inv n (after (update s w)) := by
  rw [update]
  set s1 := if w ∈ s.runningWorkers then
      { s with runningWorkers := s.runningWorkers.erase w } else s with hs1
  have hsub : s1.runningWorkers.Sublist s.runningWorkers := by
    rw [hs1]
    split
    · exact List.erase_sublist _ _
    · exact List.Sublist.refl _
  have hfields : s1.maxWorkers = s.maxWorkers ∧
      s1.pendingWorkers = s.pendingWorkers ∧
      s1.runningThreads = s.runningThreads ∧
      s1.notifyCount = s.notifyCount := by
    rw [hs1]
    split <;> exact ⟨rfl, rfl, rfl, rfl⟩
  by_cases hproc : processing s1 = true
  · rw [if_pos hproc]
    cases hp : s1.pendingWorkers with
    | none =>
        exfalso
        have hpn : s.pendingWorkers = none := by rw [← hfields.2.1, hp]
        have hrun : s.runningWorkers = [] := h.none_running hpn
        have : s1.runningWorkers = [] :=
          List.sublist_nil.mp (hrun ▸ hsub)
        rw [(processing_false_iff s1).mpr ⟨Or.inl hp, this⟩] at hproc
        cases hproc
    | some p =>
        refine inv_run_jobs_some hp ?_ ?_ ?_ ?_
        · rw [hfields.1, h.mw]
        · exact Nat.le_trans (List.Sublist.length_le hsub) h.len_le
        · intro u hu
          rw [hfields.2.2.1]
          exact h.threads_mem u (hsub.mem hu)
        · rw [hfields.2.2.1]
          exact h.keys_nodup
  · rw [if_neg hproc]
    have hfalse := (processing_false_iff s1).mp (Bool.not_eq_true _ ▸ hproc)
    refine ⟨?_, ?_, ?_, ?_, ?_, ?_⟩
    · simpa [after, hfields.1] using h.mw
    · simp [after, hfalse.2]
    · intro u hu
      simp [after, hfalse.2] at hu
    · intro _
      simp [after, hfalse.2]
    · intro _
      simpa [after] using hfalse.1
    · simp only [after]
      rw [hfields.2.2.1]
      exact h.keys_nodup

theorem stopLoop_shape (ws : List Worker) (s : ExecutorState) :
    ∃ ks, after (stopLoop s ws) = { s with killTrace := ks } := by
  induction ws generalizing s with
  | nil => exact ⟨s.killTrace, rfl⟩
  | cons w ws ih =>
      rw [stopLoop]
      cases hg : dictGet s.runningThreads w with
      | none =>
          simp only [stop_running_worker, hg]
          exact ⟨s.killTrace, rfl⟩
      | some t =>
          simp only [stop_running_worker, hg]
          obtain ⟨ks, hks⟩ := ih { s with killTrace := s.killTrace ++ [t] }
          exact ⟨ks, hks⟩

theorem inv_clean_up {n : Nat} {s : ExecutorState}
    (hmw : s.maxWorkers = n) : Inv n (clean_up s) := by
  refine ⟨hmw, by simp [clean_up], ?_, ?_, ?_, ?_⟩ <;>
    simp [clean_up, dictKeys]

theorem inv_stop {n : Nat} {s : ExecutorState} (h : Inv n s) :
    Inv n (after (stop s)) := by
  rw [stop]
  obtain ⟨ks, hks⟩ := stopLoop_shape s.runningWorkers s
  cases hsl : stopLoop s s.runningWorkers with
  | error e =>
      have : after (Except.map clean_up (Except.error e)) = e.2 := rfl
      rw [this]
      have : e.2 = { s with killTrace := ks } := by
        rw [hsl] at hks
        exact hks
      rw [this]
      exact inv_killTrace h ks
  | ok s' =>
      have : after (Except.map clean_up (Except.ok s')) = clean_up s' := rfl
      rw [this]
      have hs' : s' = { s with killTrace := ks } := by
        rw [hsl] at hks
        exact hks
      refine inv_clean_up ?_
      rw [hs']
      exact h.mw

theorem inv_start {n : Nat} {s : ExecutorState} (h : Inv n s)
    (ws : List Worker) : Inv n (after (start s ws)) := by
  rw [start]
  by_cases hws : ws.isEmpty = true
  · rw [initQueue, if_pos hws]
    exact h
  · rw [initQueue, if_neg hws]
    have : (Except.ok { s with pendingWorkers := some ws } :
        ExecResult).bind run_jobs =
        run_jobs { s with pendingWorkers := some ws } := rfl
    rw [this]
    exact inv_run_jobs_some rfl h.mw h.len_le h.threads_mem h.keys_nodup

theorem inv_step {n : Nat} {s : ExecutorState} (h : Inv n s) (e : Event) :
    Inv n (after (applyEvent s e)) := by
  cases e with
  | start ws => exact inv_start h ws
  | runJobs => exact inv_run_jobs h
  | update w => exact inv_update h w
  | stop => exact inv_stop h
  | cleanUp => exact inv_clean_up h.mw

theorem reachable_inv {n : Nat} {s : ExecutorState} (h : Reachable n s) :
    Inv n s := by
  induction h with
  | init => exact inv_init n
  | step e _ ih => exact inv_step ih e

/-! ### Completion runs -/

/-- Fold a sequence of completion callbacks over the state. -/
def runUpdates (s : ExecutorState) : List Worker → ExecutorState
  | [] => s
  | u :: us => runUpdates (after (update s u)) us

/-- A completion sequence is valid when each callback's worker is in the
running list at the moment its callback fires (a worker can only signal
completion after it was dispatched). -/
def validRun (s : ExecutorState) : List Worker → Bool
  | [] => true
  | u :: us =>
      decide (u ∈ s.runningWorkers) && validRun (after (update s u)) us

theorem update_of_mem {s : ExecutorState} {u : Worker}
    (hu : u ∈ s.runningWorkers) :
    update s u =
      (if processing { s with runningWorkers := s.runningWorkers.erase u }
       then run_jobs { s with runningWorkers := s.runningWorkers.erase u }
       else .ok { s with runningWorkers := s.runningWorkers.erase u,
                         notifyCount := s.notifyCount + 1 }) := by
  rw [update]
  simp only [hu, if_pos]

theorem update_of_not_mem {s : ExecutorState} {u : Worker}
    (hu : u ∉ s.runningWorkers) :
    update s u =
      (if processing s then run_jobs s
       else .ok { s with notifyCount := s.notifyCount + 1 }) := by
  rw [update]
  simp only [hu, if_neg, if_false]

theorem perm_drop_take (p er : List Worker) (m : Nat) :
    (p.drop m ++ (er ++ p.take m)).Perm (p ++ er) := by
  have h1 : (p.drop m ++ (er ++ p.take m)).Perm
      (p.drop m ++ (p.take m ++ er)) :=
    List.Perm.append_left _ (List.perm_append_comm)
  have h2 : p.drop m ++ (p.take m ++ er) =
      (p.drop m ++ p.take m) ++ er := (List.append_assoc _ _ _).symm
  have h3 : ((p.drop m ++ p.take m) ++ er).Perm
      ((p.take m ++ p.drop m) ++ er) :=
    List.Perm.append_right _ (List.perm_append_comm)
  have h4 : (p.take m ++ p.drop m) ++ er = p ++ er := by
    rw [List.take_append_drop]
  exact ((h1.trans (h2 ▸ List.Perm.refl _)).trans h3).trans
    (h4 ▸ List.Perm.refl _)

/-- Draining lemma: starting from a state whose queue and running list
together hold exactly the multiset `rem` of outstanding workers (no
duplicates), a valid completion sequence covering `rem` raises the external
notification count by exactly one, and only at its very last step. -/
theorem drain_notify (us : List Worker) :
    ∀ (s : ExecutorState) (p rem : List Worker),
      s.pendingWorkers = some p →
      (p ++ s.runningWorkers).Perm rem →
      rem.Nodup →
      us.Perm rem →
      validRun s us = true →
      us ≠ [] →
      (runUpdates s us).notifyCount = s.notifyCount + 1 ∧
      (∀ k, k < us.length →
        (runUpdates s (us.take k)).notifyCount = s.notifyCount) := by
  induction us with
  | nil => exact fun s p rem _ _ _ _ _ hne => absurd rfl hne
  | cons u us ih =>
      intro s p rem hp hperm hnd hus hvalid _
      have hv : u ∈ s.runningWorkers ∧
          validRun (after (update s u)) us = true := by
        have := hvalid
        rw [validRun] at this
        simpa [Bool.and_eq_true, decide_eq_true_iff] using this
      have hu := hv.1
      have hvrest := hv.2
      have hpr_nodup : (p ++ s.runningWorkers).Nodup :=
        (hperm.nodup_iff).mpr hnd
      have hup : u ∉ p := by
        intro hmem
        exact (List.nodup_append.mp hpr_nodup).2.2 hmem hu
      have hperm1 : (p ++ s.runningWorkers.erase u).Perm (rem.erase u) := by
        have h1 := hperm.erase u
        rwa [List.erase_append_right _ hup] at h1
      have hus' : us.Perm (rem.erase u) := by
        have h1 := (hus.symm).erase u
        simpa [List.erase_cons_head] using h1.symm
      have hnd' : (rem.erase u).Nodup := hnd.erase u
      by_cases hqu : rem.erase u = []
      · -- last completion: everything is drained, the notification fires
        have hboth : p = [] ∧ s.runningWorkers.erase u = [] := by
          have : (p ++ s.runningWorkers.erase u) = [] := by
            rw [hqu] at hperm1
            exact List.Perm.eq_nil hperm1
          exact List.append_eq_nil.mp this
        have husnil : us = [] := by
          rw [hqu] at hus'
          exact List.Perm.eq_nil hus'
        have hproc : processing
            { s with runningWorkers := s.runningWorkers.erase u } = false := by
          apply (processing_false_iff _).mpr
          refine ⟨Or.inr ?_, hboth.2⟩
          simpa [hboth.1] using hp
        have hupd : update s u = .ok { s with
            runningWorkers := s.runningWorkers.erase u,
            notifyCount := s.notifyCount + 1 } := by
          rw [update_of_mem hu, if_neg (by simp [hproc])]
        subst husnil
        constructor
        · simp [runUpdates, hupd, after]
        · intro k hk
          have hk0 : k = 0 := by
            simp only [List.length_cons, List.length_nil] at hk
            omega
          subst hk0
          simp [runUpdates]
      · -- more work outstanding: no notification, replenish and recurse
        set s1 := { s with runningWorkers := s.runningWorkers.erase u }
          with hs1
        have hproc : processing s1 = true := by
          by_contra hfalse
          have h0 := (processing_false_iff s1).mp
            (Bool.not_eq_true _ ▸ hfalse)
          have hpnil : p = [] := by
            rcases h0.1 with hc | hc
            · rw [hs1] at hc
              simp only at hc
              rw [hp] at hc
              cases hc
            · rw [hs1] at hc
              simp only at hc
              rw [hp] at hc
              cases hc
              rfl
          have hernil : s.runningWorkers.erase u = [] := by
            have := h0.2
            rw [hs1] at this
            exact this
          apply hqu
          have : (p ++ s.runningWorkers.erase u) = [] := by
            simp [hpnil, hernil]
          rw [this] at hperm1
          exact (List.Perm.nil_eq hperm1).symm
        have hp1 : s1.pendingWorkers = some p := hp
        have hrj := run_jobs_some s1 p hp1
        set s2 : ExecutorState := { s1 with
          pendingWorkers := some (p.drop (min (avail s1) p.length)),
          runningWorkers := s1.runningWorkers ++ dispatched s1 p,
          runningThreads := dictInsertMany s1.runningThreads
            (dispatched s1 p) s1.nextThread,
          nextThread := s1.nextThread + min (avail s1) p.length,
          dispatchTrace := s1.dispatchTrace ++ dispatched s1 p } with hs2
        have hupd : update s u = .ok s2 := by
          rw [update_of_mem hu, if_pos hproc, ← hs1, hrj]
        have hafter : after (update s u) = s2 := by rw [hupd]; rfl
        have hperm2 : ((p.drop (min (avail s1) p.length)) ++
            s2.runningWorkers).Perm (rem.erase u) := by
          have hgen := perm_drop_take p (s.runningWorkers.erase u)
            (min (avail s1) p.length)
          have hstep2 : ((p.drop (min (avail s1) p.length)) ++
              s2.runningWorkers).Perm (p ++ s.runningWorkers.erase u) := by
            simpa [hs2, hs1, dispatched] using hgen
          exact hstep2.trans hperm1
        have husne : us ≠ [] := by
          intro hnil
          rw [hnil] at hus'
          exact hqu (List.Perm.nil_eq hus').symm
        have hp2 : s2.pendingWorkers =
            some (p.drop (min (avail s1) p.length)) := by rw [hs2]
        have hrec := ih s2 (p.drop (min (avail s1) p.length)) (rem.erase u)
          hp2 hperm2 hnd' hus' (hafter ▸ hvrest) husne
        have hn2 : s2.notifyCount = s.notifyCount := by rw [hs2]
        constructor
        · rw [runUpdates, hafter, hrec.1, hn2]
        · intro k hk
          cases k with
          | zero => simp [runUpdates]
          | succ k =>
              have hk' : k < us.length := by
                simpa [List.length_cons, Nat.succ_lt_succ_iff] using hk
              have : (u :: us).take (k + 1) = u :: us.take k := rfl
              rw [this, runUpdates, hafter, hrec.2 k hk', hn2]

theorem start_ok (n : Nat) (ws : List Worker) (hws : ws ≠ []) :
    start (initState n) ws =
      run_jobs { initState n with pendingWorkers := some ws } := by
  rw [start, initQueue,
    if_neg (fun h => hws (List.isEmpty_iff.mp h))]
  rfl

/-! ### Dispatch order -/

/-- States reachable from `s0` by completion callbacks and `run_jobs` calls
only: one dispatch run, without restart or shutdown in between. -/
inductive RunReach (s0 : ExecutorState) : ExecutorState → Prop
  | refl : RunReach s0 s0
  | update (w : Worker) {s : ExecutorState} :
      RunReach s0 s → RunReach s0 (after (update s w))
  | runJobs {s : ExecutorState} :
      RunReach s0 s → RunReach s0 (after (run_jobs s))

theorem trace_pending_run_jobs {s : ExecutorState} {p : List Worker}
    (hp : s.pendingWorkers = some p) :
    ∃ q, (after (run_jobs s)).pendingWorkers = some q ∧
      (after (run_jobs s)).dispatchTrace ++ q = s.dispatchTrace ++ p := by
  rw [run_jobs_some s p hp]
  refine ⟨p.drop (min (avail s) p.length), rfl, ?_⟩
  show (s.dispatchTrace ++ dispatched s p) ++
      p.drop (min (avail s) p.length) = s.dispatchTrace ++ p
  rw [List.append_assoc, dispatched, List.take_append_drop]

theorem trace_pending_update (s : ExecutorState) (w : Worker)
    {p : List Worker} (hp : s.pendingWorkers = some p) :
    ∃ q, (after (update s w)).pendingWorkers = some q ∧
      (after (update s w)).dispatchTrace ++ q = s.dispatchTrace ++ p := by
  by_cases hw : w ∈ s.runningWorkers
  · rw [update_of_mem hw]
    set s1 := { s with runningWorkers := s.runningWorkers.erase w } with hs1
    have hp1 : s1.pendingWorkers = some p := hp
    by_cases hproc : processing s1 = true
    · rw [if_pos hproc]
      exact trace_pending_run_jobs hp1
    · rw [if_neg hproc]
      exact ⟨p, hp1, rfl⟩
  · rw [update_of_not_mem hw]
    by_cases hproc : processing s = true
    · rw [if_pos hproc]
      exact trace_pending_run_jobs hp
    · rw [if_neg hproc]
      exact ⟨p, hp, rfl⟩

/-- Along one dispatch run, the ghost dispatch trace and the still-pending
queue always concatenate to the factory list: workers start in FIFO order. -/
theorem runReach_trace {n : Nat} {ws : List Worker} (hws : ws ≠ [])
    {s : ExecutorState}
    (h : RunReach (after (start (initState n) ws)) s) :
    ∃ p, s.pendingWorkers = some p ∧ s.dispatchTrace ++ p = ws := by
  induction h with
  | refl =>
      rw [start_ok n ws hws,
        run_jobs_some { initState n with pendingWorkers := some ws } ws rfl]
      refine ⟨ws.drop (min (avail { initState n with
        pendingWorkers := some ws }) ws.length), rfl, ?_⟩
      show ((initState n).dispatchTrace ++
          dispatched { initState n with pendingWorkers := some ws } ws) ++
          ws.drop (min (avail { initState n with
            pendingWorkers := some ws }) ws.length) = ws
      rw [dispatched, List.append_assoc, List.take_append_drop]
      rfl
  | update w _ ih =>
      obtain ⟨p, hp, htr⟩ := ih
      obtain ⟨q, hq, hqtr⟩ := trace_pending_update _ w hp
      exact ⟨q, hq, hqtr.trans htr⟩
  | runJobs _ ih =>
      obtain ⟨p, hp, htr⟩ := ih
      obtain ⟨q, hq, hqtr⟩ := trace_pending_run_jobs hp
      exact ⟨q, hq, hqtr.trans htr⟩

/-! ### Stopping -/

theorem stopLoop_ok (ws : List Worker) :
    ∀ s : ExecutorState,
      (∀ w ∈ ws, (dictGet s.runningThreads w).isSome = true) →
      stopLoop s ws = .ok { s with
        killTrace := s.killTrace ++
          ws.filterMap (fun w => dictGet s.runningThreads w) } := by
  induction ws with
  | nil =>
      intro s _
      simp [stopLoop]
  | cons w ws ih =>
      intro s hmem
      have hw := hmem w (List.mem_cons_self _ _)
      obtain ⟨t, ht⟩ := Option.isSome_iff_exists.mp hw
      have hrec := ih { s with killTrace := s.killTrace ++ [t] }
        (fun u hu => hmem u (List.mem_cons_of_mem _ hu))
      rw [stopLoop]
      simp only [stop_running_worker, ht]
      rw [hrec]
      simp [List.filterMap_cons, ht, List.append_assoc]

theorem filterMap_length_of_isSome {ws : List Worker}
    {f : Worker → Option ThreadId}
    (h : ∀ w ∈ ws, (f w).isSome = true) :
    (ws.filterMap f).length = ws.length := by
  induction ws with
  | nil => rfl
  | cons w ws ih =>
      obtain ⟨t, ht⟩ := Option.isSome_iff_exists.mp
        (h w (List.mem_cons_self _ _))
      simp [List.filterMap_cons, ht,
        ih (fun u hu => h u (List.mem_cons_of_mem _ hu))]

/-! ### Completion-handler behaviour on absent workers -/

theorem update_threads_mono (s : ExecutorState) (u w : Worker)
    (h : (dictGet s.runningThreads w).isSome = true) :
    (dictGet (after (update s u)).runningThreads w).isSome = true := by
  by_cases hu : u ∈ s.runningWorkers
  · rw [update_of_mem hu]
    set s1 := { s with runningWorkers := s.runningWorkers.erase u } with hs1
    have hth : s1.runningThreads = s.runningThreads := rfl
    by_cases hproc : processing s1 = true
    · rw [if_pos hproc]
      cases hp : s1.pendingWorkers with
      | none =>
          by_cases hlt : s1.runningWorkers.length < s1.maxWorkers
          · rw [run_jobs_none_pos s1 hp hlt]
            exact h
          · rw [run_jobs_none_nonpos s1 hp (Nat.le_of_not_lt hlt)]
            exact h
      | some p =>
          rw [run_jobs_some s1 p hp]
          exact dictGet_insertMany_isSome h
    · rw [if_neg hproc]
      exact h
  · rw [update_of_not_mem hu]
    by_cases hproc : processing s = true
    · rw [if_pos hproc]
      cases hp : s.pendingWorkers with
      | none =>
          by_cases hlt : s.runningWorkers.length < s.maxWorkers
          · rw [run_jobs_none_pos s hp hlt]
            exact h
          · rw [run_jobs_none_nonpos s hp (Nat.le_of_not_lt hlt)]
            exact h
      | some p =>
          rw [run_jobs_some s p hp]
          exact dictGet_insertMany_isSome h
    · rw [if_neg hproc]
      exact h

/-- On a reachable state, a completion signal for a worker that is not in the
running list succeeds and leaves the running list untouched. -/
theorem update_not_mem_spec {n : Nat} {s : ExecutorState} {w : Worker}
    (hInv : Inv n s) (hw : w ∉ s.runningWorkers) :
    update s w = .ok (after (update s w)) ∧
    (after (update s w)).runningWorkers = s.runningWorkers := by
  rw [update_of_not_mem hw]
  by_cases hproc : processing s = true
  · rw [if_pos hproc]
    cases hp : s.pendingWorkers with
    | none =>
        exfalso
        have hrun := hInv.none_running hp
        rw [(processing_false_iff s).mpr ⟨Or.inl hp, hrun⟩] at hproc
        cases hproc
    | some p =>
        have hnoop : run_jobs s = .ok s := by
          by_cases hlt : s.runningWorkers.length < n
          · rcases hInv.slots_pending hlt with hc | hc
            · rw [hp] at hc
              cases hc
            · rw [hp] at hc
              cases hc
              exact run_jobs_noop s (Or.inl hp)
          · refine run_jobs_noop s (Or.inr ?_)
            rw [hInv.mw]
            exact Nat.le_of_not_lt hlt
        rw [hnoop]
        exact ⟨rfl, rfl⟩
  · rw [if_neg hproc]
    exact ⟨rfl, rfl⟩

/-- The state reached by a successful `start` holds the still-queued and the
dispatched workers as a partition of the factory list, with no notification
emitted yet. -/
theorem start_drain (n : Nat) (ws : List Worker) (hws : ws ≠ []) :
    ∃ p, (after (start (initState n) ws)).pendingWorkers = some p ∧
      (p ++ (after (start (initState n) ws)).runningWorkers).Perm ws ∧
      (after (start (initState n) ws)).notifyCount = 0 := by
  rw [start_ok n ws hws,
    run_jobs_some { initState n with pendingWorkers := some ws } ws rfl]
  refine ⟨ws.drop (min (avail { initState n with pendingWorkers := some ws })
    ws.length), rfl, ?_, rfl⟩
  have hgen := perm_drop_take ws ([] : List Worker)
    (min (avail { initState n with pendingWorkers := some ws }) ws.length)
  simpa [dispatched, initState] using hgen

/-! ## Claim theorems -/

/-- C1: for every configured `max_workers = n` and every state of one
executor instance reachable by any sequence of `start`, `run_jobs`,
`update`, `stop` and `clean_up` calls, the running-worker list never holds
more than `n` workers. -/
theorem c1_running_bounded (n : Nat) (s : ExecutorState)
    (h : Reachable n s) : s.runningWorkers.length ≤ n :=
  (reachable_inv h).len_le

theorem c1_running_bounded_witness :
    (after (applyEvent (initState 2)
      (Event.start [1, 2, 3]))).runningWorkers.length ≤ 2 :=
  c1_running_bounded 2 _
    (Reachable.step (Event.start [1, 2, 3]) Reachable.init)

/-- C2: for a non-empty batch `ws` of distinct workers and any configured
bound, if `start` succeeds and the completion handler is invoked exactly
once per worker (each invocation at a moment its worker is running), then
`notify_observers` is emitted exactly once over the whole run, by the last
completion's handler invocation and never by an earlier one. -/
theorem c2_notify_once (n : Nat) (ws us : List Worker) (hws : ws ≠ [])
    (hnd : ws.Nodup) (hperm : us.Perm ws)
    (hvalid : validRun (after (start (initState n) ws)) us = true) :
    (runUpdates (after (start (initState n) ws)) us).notifyCount = 1 ∧
    ∀ k, k < us.length →
      (runUpdates (after (start (initState n) ws)) (us.take k)).notifyCount
        = 0 := by
  have husne : us ≠ [] := by
    intro hnil
    rw [hnil] at hperm
    exact hws (List.Perm.nil_eq hperm).symm
  obtain ⟨p, hp, hP, hnotify⟩ := start_drain n ws hws
  have hdrain := drain_notify us (after (start (initState n) ws)) p ws
    hp hP hnd hperm hvalid husne
  rw [hnotify] at hdrain
  exact ⟨by simpa using hdrain.1, fun k hk => by simpa using hdrain.2 k hk⟩

theorem c2_notify_once_witness :
    (runUpdates (after (start (initState 1) [1, 2])) [1, 2]).notifyCount
      = 1 :=
  (c2_notify_once 1 [1, 2] [1, 2] (by decide) (by decide)
    (List.Perm.refl _) (by decide)).1

/-- C3: an empty (falsy) factory result makes `start` raise
`OperationalException` synchronously with the state unchanged (so nothing is
dispatched), and on a fresh instance the running list is empty and the
pending-queue attribute holds no worker. -/
theorem c3_empty_factory (s : ExecutorState) (n : Nat) :
    start s [] = .error (.operationalException, s) ∧
    (initState n).runningWorkers = [] ∧
    (initState n).pendingWorkers = none :=
  ⟨rfl, rfl, rfl⟩

/-- C4 counterexample: in the reachable state built by `start` on factory
list `[1, 2]` with `max_workers = 1` followed by the completion of worker
`1`, the handle mapping still holds worker `1` although the running list no
longer does — the claimed one-to-one correspondence fails because `update`
never deletes `_running_threads` entries. -/
theorem c4_counterexample :
    (dictGet (after (update (after (start (initState 1) [1, 2]))
      1)).runningThreads 1).isSome = true ∧
    (1 : Worker) ∉
      (after (update (after (start (initState 1) [1, 2]))
        1)).runningWorkers := by
  decide

/-- C4 amended: in every reachable state, every worker of the running list
has exactly one entry in the running-handles mapping; but not conversely —
the completion handler `update` never removes mapping entries (it preserves
every existing handle key), so the mapping may retain entries of completed
workers until `stop`/`clean_up` resets it. -/
theorem c4_running_handles (n : Nat) (s : ExecutorState) (u : Worker)
    (h : Reachable n s) :
    (∀ w ∈ s.runningWorkers,
      s.runningThreads.countP (fun e => e.1 == w) = 1) ∧
    ∀ w, (dictGet s.runningThreads w).isSome = true →
      (dictGet (after (update s u)).runningThreads w).isSome = true := by
  have hInv := reachable_inv h
  exact ⟨fun w hw =>
    dict_countP_eq_one hInv.keys_nodup (hInv.threads_mem w hw),
    fun w hws => update_threads_mono s u w hws⟩

theorem c4_running_handles_witness :
    (after (applyEvent (initState 1)
      (Event.start [1, 2]))).runningThreads.countP
      (fun e => e.1 == 1) = 1 :=
  (c4_running_handles 1 _ 0
    (Reachable.step (Event.start [1, 2]) Reachable.init)).1 1 (by decide)

/-- C5: on any reachable state, invoking the completion handler for a worker
that is not (or no longer) in the running list raises no error and leaves
the running list — hence the free-slot count — exactly as it was, and doing
it twice changes the running list no more than doing it once. -/
theorem c5_update_idempotent (n : Nat) (s : ExecutorState) (w : Worker)
    (h : Reachable n s) (hw : w ∉ s.runningWorkers) :
    (∃ s', update s w = .ok s') ∧
    (after (update s w)).runningWorkers = s.runningWorkers ∧
    (after (update (after (update s w)) w)).runningWorkers =
      s.runningWorkers := by
  have h1 := update_not_mem_spec (reachable_inv h) hw
  have h2 : Reachable n (after (update s w)) :=
    Reachable.step (Event.update w) h
  have hw2 : w ∉ (after (update s w)).runningWorkers := by
    rw [h1.2]
    exact hw
  have h3 := update_not_mem_spec (reachable_inv h2) hw2
  exact ⟨⟨after (update s w), h1.1⟩, h1.2, by rw [h3.2, h1.2]⟩

theorem c5_update_idempotent_witness :
    (after (update (after (applyEvent (initState 1)
      (Event.start [1, 2]))) 7)).runningWorkers =
      (after (applyEvent (initState 1)
        (Event.start [1, 2]))).runningWorkers :=
  (c5_update_idempotent 1 _ 7
    (Reachable.step (Event.start [1, 2]) Reachable.init) (by decide)).2.1

/-- C6 counterexample: on a fresh instance (queue attribute `None`, so it
holds no worker) with free slots, `run_jobs` is not a no-op: it raises
`AttributeError`. -/
theorem c6_counterexample :
    run_jobs (initState 2) = .error (.attributeError, initState 2) := rfl

/-- C6 amended: `run_jobs` raises no error and leaves the state unchanged
when the pending queue is present but empty or when no slot is free; but
when the queue attribute is unset (`None`) and a slot is free, it raises
`AttributeError` (with the state unchanged at the raise). -/
theorem c6_run_jobs_noop (s : ExecutorState) :
    (s.pendingWorkers = some [] ∨ s.maxWorkers ≤ s.runningWorkers.length →
      run_jobs s = .ok s) ∧
    (s.pendingWorkers = none → s.runningWorkers.length < s.maxWorkers →
      run_jobs s = .error (.attributeError, s)) :=
  ⟨run_jobs_noop s, fun h1 h2 => run_jobs_none_pos s h1 h2⟩

theorem c6_run_jobs_noop_witness :
    run_jobs ⟨2, some [], [], [], 0, [], 0, []⟩ =
      .ok ⟨2, some [], [], [], 0, [], 0, []⟩ :=
  (c6_run_jobs_noop ⟨2, some [], [], [], 0, [], 0, []⟩).1 (Or.inl rfl)

/-- C7: dispatch is FIFO in factory order: at every point of a run (the
state after `start`, followed by any completion callbacks and `run_jobs`
calls), the ghost trace of started workers concatenated with the still-
pending queue is exactly the factory list, so the trace is always a prefix
of `[w1, .., wM]` — each `wi` starts strictly before every `wj` with
`i < j`, regardless of completion order. -/
theorem c7_fifo_dispatch (n : Nat) (ws : List Worker) (s : ExecutorState)
    (hws : ws ≠ [])
    (h : RunReach (after (start (initState n) ws)) s) :
    s.dispatchTrace ++ s.pendingWorkers.getD [] = ws ∧
    s.dispatchTrace = ws.take s.dispatchTrace.length := by
  obtain ⟨p, hp, htr⟩ := runReach_trace hws h
  rw [hp]
  refine ⟨by simpa using htr, ?_⟩
  rw [← htr]
  exact (List.take_left _ _).symm

theorem c7_fifo_dispatch_witness :
    (after (update (after (start (initState 1) [3, 4]))
        3)).dispatchTrace ++
      (after (update (after (start (initState 1) [3, 4]))
        3)).pendingWorkers.getD [] = [3, 4] ∧
    (after (update (after (start (initState 1) [3, 4]))
        3)).dispatchTrace =
      ([3, 4] : List Worker).take
        (after (update (after (start (initState 1) [3, 4]))
          3)).dispatchTrace.length :=
  c7_fifo_dispatch 1 [3, 4] _ (by decide)
    (RunReach.update 3 RunReach.refl)

/-- C8: on every reachable state, `stop` raises no error (also with nothing
running), invokes `kill` on the thread handle of every worker of the running
list (in order, one kill per running worker), and afterwards the pending
queue holds no worker and the running list and the handle mapping are
empty. -/
theorem c8_stop_resets (n : Nat) (s : ExecutorState) (h : Reachable n s) :
    stop s = .ok { s with
      pendingWorkers := none,
      runningWorkers := [],
      runningThreads := [],
      killTrace := s.killTrace ++
        s.runningWorkers.filterMap
          (fun w => dictGet s.runningThreads w) } ∧
    (s.runningWorkers.filterMap
      (fun w => dictGet s.runningThreads w)).length =
      s.runningWorkers.length := by
  have hmem := (reachable_inv h).threads_mem
  refine ⟨?_, filterMap_length_of_isSome hmem⟩
  rw [stop, stopLoop_ok s.runningWorkers s hmem]
  rfl

theorem c8_stop_resets_witness :
    ((after (applyEvent (initState 1)
      (Event.start [5, 6]))).runningWorkers.filterMap
      (fun w => dictGet (after (applyEvent (initState 1)
        (Event.start [5, 6]))).runningThreads w)).length =
      (after (applyEvent (initState 1)
        (Event.start [5, 6]))).runningWorkers.length :=
  (c8_stop_resets 1 _
    (Reachable.step (Event.start [5, 6]) Reachable.init)).2

/-- C10: the batch-complete notification is not latched: in every state with
`processing` false, each invocation of the completion handler — including a
spurious or duplicate signal after the batch already completed — calls
`notify_observers` once more, and leaves the state again with `processing`
false, so every further invocation notifies again. -/
theorem c10_notify_not_latched (s : ExecutorState) (w : Worker)
    (h : processing s = false) :
    update s w = .ok { s with notifyCount := s.notifyCount + 1 } ∧
    processing { s with notifyCount := s.notifyCount + 1 } = false := by
  have hrun : s.runningWorkers = [] := ((processing_false_iff s).mp h).2
  have hw : w ∉ s.runningWorkers := by
    rw [hrun]
    exact List.not_mem_nil w
  have hsame : processing { s with notifyCount := s.notifyCount + 1 } =
      processing s := rfl
  refine ⟨?_, hsame.trans h⟩
  rw [update_of_not_mem hw, if_neg (by simp [h])]

theorem c10_notify_not_latched_witness :
    update (initState 3) 9 = .ok { initState 3 with
      notifyCount := (initState 3).notifyCount + 1 } ∧
    processing { initState 3 with
      notifyCount := (initState 3).notifyCount + 1 } = false :=
  c10_notify_not_latched (initState 3) 9 (by decide)

end ExecutorModel
